import Mathlib

/-!
# Verification of the Untangle puzzle core (untangle.c)

A shallow embedding of the generation and verification engine of
untangle.c: the exact rational segment-crossing predicate, the move
decoder and completion validator of execute_move, the candidate-list
construction of the greedy planar synthesizer, the permutation search of
the circular scrambler, and the description validator.  C `int` values
are modelled as `Int` (the engine's own invariants keep all products far
from machine-word overflow for the supported point counts), C strings as
`List Char`, and the `tree234` edge/vertex trees as sorted lists.
-/

namespace Untangle

/-- A planar point with rational coordinates: numerators `x`, `y` over a
shared denominator `d` (struct point in untangle.c). -/
structure point where
  x : Int
  y : Int
  d : Int
deriving DecidableEq, Repr

/-- An edge stores two point indices, canonically `a < b`
(struct edge in untangle.c). -/
structure edge where
  a : Nat
  b : Nat
deriving DecidableEq, Repr

/-- Second half of `cross`: test whether a1 and a2 are strictly on the
same side of the line b1-b2 (the code falls through to this block after
the first orientation test); result TRUE means "not separated", i.e. the
segments are taken to cross. -/
def crossSecond (a1 a2 b1 b2 : point) : Bool :=
  let b1x := a1.x * b1.d - b1.x * a1.d
  let b1y := a1.y * b1.d - b1.y * a1.d
  let b2x := a2.x * b1.d - b1.x * a2.d
  let b2y := a2.y * b1.d - b1.y * a2.d
  let px := b1.y * b2.d - b2.y * b1.d
  let py := b2.x * b1.d - b1.x * b2.d
  let d1 := b1x * px + b1y * py
  let d2 := b2x * px + b2y * py
  if (0 < d1 ∧ 0 < d2) ∨ (d1 < 0 ∧ d2 < 0) then false else true

/-- The segment-intersection predicate `cross` of untangle.c: whether the
segment a1-a2 and the segment b1-b2 intersect, counting an endpoint lying
exactly on the other segment as an intersection.  Direct translation of
the C function: orientation test of b1, b2 against the line a1-a2, a 1-D
overlap fallback when both are collinear with it, then the orientation
test the other way round (`crossSecond`). -/
def cross (a1 a2 b1 b2 : point) : Bool :=
  let b1x := b1.x * a1.d - a1.x * b1.d
  let b1y := b1.y * a1.d - a1.y * b1.d
  let b2x := b2.x * a1.d - a1.x * b2.d
  let b2y := b2.y * a1.d - a1.y * b2.d
  let px := a1.y * a2.d - a2.y * a1.d
  let py := a2.x * a1.d - a1.x * a2.d
  let d1 := b1x * px + b1y * py
  let d2 := b2x * px + b2y * py
  if (0 < d1 ∧ 0 < d2) ∨ (d1 < 0 ∧ d2 < 0) then false
  else if d1 = 0 ∧ d2 = 0 then
    let qx := a2.x * a1.d - a1.x * a2.d
    let qy := a2.y * a1.d - a1.y * a2.d
    let e1 := b1x * qx + b1y * qy
    let e2 := b2x * qx + b2y * qy
    let e3 := qx * qx + qy * qy
    if e1 < 0 ∧ e2 < 0 then false
    else if e3 < e1 ∧ e3 < e2 then false
    else crossSecond a1 a2 b1 b2
  else crossSecond a1 a2 b1 b2

/-- Sign-transfer helper: if `s * u = -(t * v)` with `s, t` positive then
`u` and `v` have opposite sign behaviour. -/
theorem sign_flip {s t u v : Int} (hs : 0 < s) (ht : 0 < t)
    (h : s * u = -(t * v)) : (0 < u ↔ v < 0) ∧ (u < 0 ↔ 0 < v) := by
  constructor
  · constructor
    · intro hu
      nlinarith
    · intro hv
      nlinarith
  · constructor
    · intro hu
      nlinarith
    · intro hv
      nlinarith

/-- `crossSecond` is invariant under swapping the second segment's
endpoints, provided both denominators are positive: the two dot products
flip sign (with positive rescaling), which preserves the same-sign test. -/
theorem crossSecond_swap_b (a1 a2 b1 b2 : point)
    (hb1 : 0 < b1.d) (hb2 : 0 < b2.d) :
    crossSecond a1 a2 b2 b1 = crossSecond a1 a2 b1 b2 := by
  have h1 : b1.d * ((a1.x * b2.d - b2.x * a1.d) * (b2.y * b1.d - b1.y * b2.d) +
      (a1.y * b2.d - b2.y * a1.d) * (b1.x * b2.d - b2.x * b1.d)) =
      -(b2.d * ((a1.x * b1.d - b1.x * a1.d) * (b1.y * b2.d - b2.y * b1.d) +
      (a1.y * b1.d - b1.y * a1.d) * (b2.x * b1.d - b1.x * b2.d))) := by ring
  have h2 : b1.d * ((a2.x * b2.d - b2.x * a2.d) * (b2.y * b1.d - b1.y * b2.d) +
      (a2.y * b2.d - b2.y * a2.d) * (b1.x * b2.d - b2.x * b1.d)) =
      -(b2.d * ((a2.x * b1.d - b1.x * a2.d) * (b1.y * b2.d - b2.y * b1.d) +
      (a2.y * b1.d - b1.y * a2.d) * (b2.x * b1.d - b1.x * b2.d))) := by ring
  have s1 := sign_flip hb1 hb2 h1
  have s2 := sign_flip hb1 hb2 h2
  simp only [crossSecond]
  refine if_congr ?_ rfl rfl
  constructor
  · rintro (⟨x1, x2⟩ | ⟨x1, x2⟩)
    · exact Or.inr ⟨s1.1.mp x1, s2.1.mp x2⟩
    · exact Or.inl ⟨s1.2.mp x1, s2.2.mp x2⟩
  · rintro (⟨x1, x2⟩ | ⟨x1, x2⟩)
    · exact Or.inr ⟨s1.2.mpr x1, s2.2.mpr x2⟩
    · exact Or.inl ⟨s1.1.mpr x1, s2.1.mpr x2⟩

/-- C2 (amended): of the claimed symmetries of the crossing predicate,
the invariance under swapping the second segment's endpoints holds for
every four points with positive denominators:
cross(a1,a2,b2,b1) = cross(a1,a2,b1,b2).  (The invariance under swapping
the first segment's endpoints and under exchanging the two segments fails
in general, see the counterexample.)  Proof: the first orientation block
literally exchanges its two dot products, the collinear fallback is
symmetric in them, and the second block flips both signs. -/
theorem cross_swap_b (a1 a2 b1 b2 : point)
    (hb1 : 0 < b1.d) (hb2 : 0 < b2.d) :
    cross a1 a2 b2 b1 = cross a1 a2 b1 b2 := by
  simp only [cross]
  rw [crossSecond_swap_b a1 a2 b1 b2 hb1 hb2]
  refine if_congr (by tauto) rfl (if_congr (by tauto) (if_congr (by tauto) rfl (if_congr (by tauto) rfl rfl)) rfl)

/-- C2 (counterexample): the crossing predicate is NOT invariant under
swapping the first segment's endpoints, nor under exchanging the two
segments, even with positive denominators.  With a1 = (0,0)/1,
a2 = (1,0)/1 and b1 = b2 = (3,0)/4 (the point 3/4, which lies on the
segment), swapping a1 and a2 flips the result: the collinear fallback
compares dot products at mismatched denominator scales.  With the three
collinear unit-denominator points (0,0), (1,0), (2,0), exchanging the
segments (degenerate second segment beyond the first) also flips the
result.  Hence the chain of equalities claimed for all valid quadruples
is false. -/
theorem cross_symmetry_counterexample :
    (cross ⟨0, 0, 1⟩ ⟨1, 0, 1⟩ ⟨3, 0, 4⟩ ⟨3, 0, 4⟩ = false ∧
     cross ⟨1, 0, 1⟩ ⟨0, 0, 1⟩ ⟨3, 0, 4⟩ ⟨3, 0, 4⟩ = true) ∧
    (cross ⟨0, 0, 1⟩ ⟨1, 0, 1⟩ ⟨2, 0, 1⟩ ⟨2, 0, 1⟩ = false ∧
     cross ⟨2, 0, 1⟩ ⟨2, 0, 1⟩ ⟨0, 0, 1⟩ ⟨1, 0, 1⟩ = true) := by
  decide

/-- C2 (witness): the amended symmetry applied at a concrete quadruple
with positive denominators. -/
theorem cross_swap_b_witness :
    0 < (⟨1, 2, 3⟩ : point).d ∧ 0 < (⟨3, 4, 2⟩ : point).d ∧
    cross ⟨0, 0, 1⟩ ⟨5, 1, 2⟩ ⟨3, 4, 2⟩ ⟨1, 2, 3⟩ =
      cross ⟨0, 0, 1⟩ ⟨5, 1, 2⟩ ⟨1, 2, 3⟩ ⟨3, 4, 2⟩ :=
  ⟨by decide, by decide,
   cross_swap_b ⟨0, 0, 1⟩ ⟨5, 1, 2⟩ ⟨1, 2, 3⟩ ⟨3, 4, 2⟩ (by decide) (by decide)⟩

/-- C6: with the collinear points p1 = (0,0)/1, p2 = (1,0)/1,
p3 = (2,0)/1: a degenerate segment at p2 touching the interior of the
segment p1-p3 counts as intersecting, while a degenerate segment at p3,
collinear but strictly beyond the far endpoint of p1-p2, does not. -/
theorem cross_degenerate_cases :
    cross ⟨0, 0, 1⟩ ⟨2, 0, 1⟩ ⟨1, 0, 1⟩ ⟨1, 0, 1⟩ = true ∧
    cross ⟨0, 0, 1⟩ ⟨1, 0, 1⟩ ⟨2, 0, 1⟩ ⟨2, 0, 1⟩ = false := by
  decide

/-! ## Move decoding and the completion validator (execute_move) -/

/-- Maximal-munch decimal-digit accumulation, the digit loop inside the
scanf integer conversion: consume digits, accumulating their value. -/
def scanDigits (acc : Nat) : List Char → Nat × List Char
  | [] => (acc, [])
  | c :: cs =>
    if c.isDigit then scanDigits (acc * 10 + (c.toNat - 48)) cs
    else (acc, c :: cs)

/-- A run of at least one decimal digit. -/
def parseDigits : List Char → Option (Nat × List Char)
  | [] => none
  | c :: cs => if c.isDigit then some (scanDigits (c.toNat - 48) cs) else none

/-- Model of the scanf `%d` conversion used by `sscanf` in execute_move
and (via atoi) in validate_desc: an optional sign followed by at least
one decimal digit.  (The leading-whitespace skip of scanf is not
modelled: no whitespace occurs in any move or description string the
game ever produces, and none of the properties below depends on it.) -/
def parseIntTok (cs : List Char) : Option (Int × List Char) :=
  match cs with
  | [] => none
  | c :: rest =>
    if c = '-' then (parseDigits rest).map fun p => (-(p.1 : Int), p.2)
    else if c = '+' then (parseDigits rest).map fun p => ((p.1 : Int), p.2)
    else (parseDigits (c :: rest)).map fun p => ((p.1 : Int), p.2)

/-- Match one literal character of the scanf format string. -/
def expectChar (c : Char) : List Char → Option (List Char)
  | c0 :: r => if c0 = c then some r else none
  | [] => none

/-- Model of `sscanf(move+1, "%d:%d,%d/%d%n", &p, &x, &y, &d, &k) == 4`:
four integers separated by the literal characters ':', ',' and '/'.
Instead of the consumed-character count `%n` it returns the remaining
character list (the C code only ever uses `k` to advance the pointer). -/
def parse4 (cs : List Char) : Option (Int × Int × Int × Int × List Char) :=
  (parseIntTok cs).bind fun pr =>
  (expectChar ':' pr.2).bind fun r1 =>
  (parseIntTok r1).bind fun xr =>
  (expectChar ',' xr.2).bind fun r2 =>
  (parseIntTok r2).bind fun yr =>
  (expectChar '/' yr.2).bind fun r3 =>
  (parseIntTok r3).map fun dr => (pr.1, xr.1, yr.1, dr.1, dr.2)

/-- The game state (struct game_state): parameters, coordinate extent,
per-vertex points, the shared edge set (the `tree234` of the graph,
modelled as its sorted list of edges), and the three flags. -/
structure game_state where
  n : Nat
  w : Int
  h : Int
  pts : List point
  edges : List edge
  completed : Bool
  cheated : Bool
  just_solved : Bool
deriving DecidableEq, Repr

/-- Point lookup `pts[i]` (indices are always in range in the C code;
out-of-range lookups fall back to a dummy point, a totality artifact). -/
def getPt (pts : List point) (i : Nat) : point :=
  pts.getD i ⟨0, 0, 1⟩

/-- The skip test of both crossing scans:
`e2->a == e->a || e2->a == e->b || e2->b == e->a || e2->b == e->b`. -/
def sharesEndpoint (e e2 : edge) : Bool :=
  e2.a == e.a || e2.a == e.b || e2.b == e.a || e2.b == e.b

/-- The doubly-nested edge-pair scan shared by execute_move's completion
check and new_game_desc's scrambler test: walk every pair of edges
(`i`, `j > i` in tree order), skip pairs sharing an endpoint, and report
whether `cross` holds for any remaining pair, with the later edge's
endpoints passed first as in the C calls. -/
def findCrossPair (c : Nat → point) : List edge → Bool
  | [] => false
  | e :: rest =>
    rest.any (fun e2 => !sharesEndpoint e e2 &&
      cross (c e2.a) (c e2.b) (c e.a) (c e.b)) || findCrossPair c rest

/-- `if (*move == ';') move++;` — drop one following separator. -/
def afterSemi : List Char → List Char
  | [] => []
  | c :: r => if c = ';' then r else c :: r

/-- The solve-marker branch of one execute_move loop iteration:
`if (*move == 'S') { move++; if (*move == ';') move++;
ret->cheated = ret->just_solved = TRUE; }`. -/
def stripS (cs : List Char) (ch js : Bool) : List Char × Bool × Bool :=
  match cs with
  | [] => (cs, ch, js)
  | c :: r => if c = 'S' then (afterSemi r, true, true) else (cs, ch, js)

/-- The point-record branch of one execute_move loop iteration: require
`P`, parse `<i>:<x>,<y>/<d>`, check `p >= 0 && p < n && d > 0`, store the
new point, and drop one following separator; anything else rejects. -/
def parseP (n : Nat) (cs : List Char) (pts : List point) :
    Option (List point × List Char) :=
  match cs with
  | [] => none
  | c :: r =>
    if c = 'P' then
      match parse4 r with
      | some (p, x, y, d, r2) =>
        if 0 ≤ p ∧ p < (n : Int) ∧ 0 < d then
          some (pts.set p.toNat ⟨x, y, d⟩, afterSemi r2)
        else none
      | none => none
    else none

/-- The parsing/updating loop of execute_move, on the duplicated state's
mutable parts (points and the cheated / just_solved flags).  Each
iteration optionally consumes a solve marker (`stripS`), then must
consume a point record (`parseP`); any other shape frees the new state
and returns NULL, modelled as `none`.  The fuel argument only bounds the
recursion; every continuing iteration consumes at least one character,
so the caller's `length + 1` fuel is never exhausted. -/
def applyLoop (n : Nat) (fuel : Nat) (pts : List point) (ch js : Bool)
    (cs : List Char) : Option (List point × Bool × Bool) :=
  match cs with
  | [] => some (pts, ch, js)
  | _ :: _ =>
    match fuel with
    | 0 => none
    | fuel' + 1 =>
      match stripS cs ch js with
      | (cs1, ch1, js1) =>
        match parseP n cs1 pts with
        | some (pts', rest) => applyLoop n fuel' pts' ch1 js1 rest
        | none => none

/-- execute_move: duplicate the state, clear just_solved, run the
parsing/updating loop, and if it succeeds recompute the completion flag
(unless already completed, in which case it stays true). -/
def execute_move (st : game_state) (move : String) : Option game_state :=
  (applyLoop st.n (move.data.length + 1) st.pts st.cheated false
      move.data).map fun out =>
    { st with
      pts := out.1
      cheated := out.2.1
      just_solved := out.2.2
      completed := st.completed || !findCrossPair (getPt out.1) st.edges }

/-! ### Character accounting for the move parser -/

/-- Whether a character list contains the solve marker 'S'. -/
def hasSolveMarker : List Char → Bool
  | [] => false
  | c :: cs => c == 'S' || hasSolveMarker cs

theorem hasSolveMarker_iff_mem (cs : List Char) :
    hasSolveMarker cs = true ↔ 'S' ∈ cs := by
  induction cs with
  | nil => simp [hasSolveMarker]
  | cons c cs ih =>
    simp only [hasSolveMarker, Bool.or_eq_true, beq_iff_eq, ih, List.mem_cons]
    constructor
    · rintro (rfl | h)
      · exact Or.inl rfl
      · exact Or.inr h
    · rintro (h | h)
      · exact Or.inl h.symm
      · exact Or.inr h

theorem hasSolveMarker_afterSemi (cs : List Char) :
    hasSolveMarker (afterSemi cs) = hasSolveMarker cs := by
  cases cs with
  | nil => rfl
  | cons c cs =>
    by_cases h : c = ';'
    · subst h
      have hS : ((';' : Char) == 'S') = false := by decide
      simp [afterSemi, hasSolveMarker, hS]
    · simp [afterSemi, h]

/-- A decimal digit is never the solve marker. -/
theorem digit_ne_S {c : Char} (hd : c.isDigit = true) : (c == 'S') = false := by
  rcases Bool.eq_false_or_eq_true (c == 'S') with h | h
  · rw [beq_iff_eq] at h
    subst h
    exact absurd hd (by decide)
  · exact h

theorem scanDigits_hasS (cs : List Char) : ∀ acc : Nat,
    hasSolveMarker (scanDigits acc cs).2 = hasSolveMarker cs := by
  induction cs with
  | nil => intro acc; rfl
  | cons c cs ih =>
    intro acc
    by_cases hd : c.isDigit
    · simp [scanDigits, hd, ih, hasSolveMarker, digit_ne_S hd]
    · simp [scanDigits, hd, hasSolveMarker]

theorem scanDigits_append_stop (cs : List Char) : ∀ (acc v : Nat) (c : Char)
    (r w : List Char), scanDigits acc cs = (v, c :: r) →
    scanDigits acc (cs ++ w) = (v, c :: (r ++ w)) := by
  induction cs with
  | nil =>
    intro acc v c r w h
    exact absurd h (by simp [scanDigits])
  | cons c0 cs ih =>
    intro acc v c r w h
    by_cases hd : c0.isDigit
    · simp only [scanDigits, hd, if_true, List.cons_append] at h ⊢
      exact ih _ _ _ _ _ h
    · simp only [scanDigits, hd] at h ⊢
      simp only [Bool.false_eq_true, if_false, Prod.mk.injEq, List.cons.injEq] at h
      obtain ⟨rfl, rfl, rfl⟩ := h
      simp

theorem scanDigits_append_semi (cs : List Char) : ∀ (acc v : Nat)
    (w : List Char), scanDigits acc cs = (v, []) →
    scanDigits acc (cs ++ ';' :: w) = (v, ';' :: w) := by
  induction cs with
  | nil =>
    intro acc v w h
    simp only [scanDigits, Prod.mk.injEq] at h
    obtain ⟨rfl, -⟩ := h
    have hsemi : ((';' : Char).isDigit) = false := by decide
    simp [scanDigits, hsemi]
  | cons c0 cs ih =>
    intro acc v w h
    by_cases hd : c0.isDigit
    · simp only [scanDigits, hd, if_true, List.cons_append] at h ⊢
      exact ih _ _ _ h
    · simp only [scanDigits, hd] at h
      simp only [Bool.false_eq_true, if_false, Prod.mk.injEq] at h
      exact absurd h.2 (by simp)

theorem parseDigits_hasS (cs : List Char) (pr : Nat × List Char)
    (h : parseDigits cs = some pr) :
    hasSolveMarker pr.2 = hasSolveMarker cs := by
  cases cs with
  | nil => simp [parseDigits] at h
  | cons c cs' =>
    by_cases hd : c.isDigit
    · simp only [parseDigits, hd, if_true, Option.some.injEq] at h
      subst h
      rw [scanDigits_hasS cs' (c.toNat - 48)]
      simp [hasSolveMarker, digit_ne_S hd]
    · simp [parseDigits, hd] at h

theorem parseDigits_append_stop (cs : List Char) (v : Nat) (c : Char)
    (r w : List Char) (h : parseDigits cs = some (v, c :: r)) :
    parseDigits (cs ++ w) = some (v, c :: (r ++ w)) := by
  cases cs with
  | nil => simp [parseDigits] at h
  | cons c0 cs' =>
    by_cases hd : c0.isDigit
    · simp only [parseDigits, hd, if_true, Option.some.injEq, List.cons_append] at h ⊢
      exact scanDigits_append_stop cs' _ _ _ _ _ h
    · simp [parseDigits, hd] at h

theorem parseDigits_append_semi (cs : List Char) (v : Nat)
    (w : List Char) (h : parseDigits cs = some (v, [])) :
    parseDigits (cs ++ ';' :: w) = some (v, ';' :: w) := by
  cases cs with
  | nil => simp [parseDigits] at h
  | cons c0 cs' =>
    by_cases hd : c0.isDigit
    · simp only [parseDigits, hd, if_true, Option.some.injEq, List.cons_append] at h ⊢
      exact scanDigits_append_semi cs' _ _ _ h
    · simp [parseDigits, hd] at h

theorem parseIntTok_hasS (cs : List Char) (pr : Int × List Char)
    (h : parseIntTok cs = some pr) :
    hasSolveMarker pr.2 = hasSolveMarker cs := by
  cases cs with
  | nil => simp [parseIntTok] at h
  | cons c rest =>
    by_cases h1 : c = '-'
    · subst h1
      simp only [parseIntTok, if_true, Option.map_eq_some'] at h
      obtain ⟨q, hq, heq⟩ := h
      subst heq
      have hmS : (('-' : Char) == 'S') = false := by decide
      simp [parseDigits_hasS rest q hq, hasSolveMarker, hmS]
    · by_cases h2 : c = '+'
      · subst h2
        simp only [parseIntTok, if_neg (show ¬('+' : Char) = '-' by decide),
          if_true, Option.map_eq_some'] at h
        obtain ⟨q, hq, heq⟩ := h
        subst heq
        have hpS : (('+' : Char) == 'S') = false := by decide
        simp [parseDigits_hasS rest q hq, hasSolveMarker, hpS]
      · simp only [parseIntTok, if_neg h1, if_neg h2, Option.map_eq_some'] at h
        obtain ⟨q, hq, heq⟩ := h
        subst heq
        exact parseDigits_hasS _ q hq

theorem parseIntTok_append_stop (cs : List Char) (v : Int) (c : Char)
    (r w : List Char) (h : parseIntTok cs = some (v, c :: r)) :
    parseIntTok (cs ++ w) = some (v, c :: (r ++ w)) := by
  cases cs with
  | nil => simp [parseIntTok] at h
  | cons c0 rest =>
    by_cases h1 : c0 = '-'
    · subst h1
      simp only [parseIntTok, if_true, Option.map_eq_some', List.cons_append] at h ⊢
      obtain ⟨⟨n, r0⟩, hq, heq⟩ := h
      simp only [Prod.mk.injEq] at heq
      obtain ⟨rfl, rfl⟩ := heq
      exact ⟨(n, c :: (r ++ w)), parseDigits_append_stop rest n c r w hq, rfl⟩
    · by_cases h2 : c0 = '+'
      · subst h2
        simp only [parseIntTok, if_neg (show ¬('+' : Char) = '-' by decide),
          if_true, Option.map_eq_some', List.cons_append] at h ⊢
        obtain ⟨⟨n, r0⟩, hq, heq⟩ := h
        simp only [Prod.mk.injEq] at heq
        obtain ⟨rfl, rfl⟩ := heq
        exact ⟨(n, c :: (r ++ w)), parseDigits_append_stop rest n c r w hq, rfl⟩
      · simp only [parseIntTok, if_neg h1, if_neg h2, Option.map_eq_some',
          List.cons_append] at h ⊢
        obtain ⟨⟨n, r0⟩, hq, heq⟩ := h
        simp only [Prod.mk.injEq] at heq
        obtain ⟨rfl, rfl⟩ := heq
        refine ⟨(n, c :: (r ++ w)), ?_, rfl⟩
        have := parseDigits_append_stop (c0 :: rest) n c r w hq
        simpa using this

theorem parseIntTok_append_semi (cs : List Char) (v : Int)
    (w : List Char) (h : parseIntTok cs = some (v, [])) :
    parseIntTok (cs ++ ';' :: w) = some (v, ';' :: w) := by
  cases cs with
  | nil => simp [parseIntTok] at h
  | cons c0 rest =>
    by_cases h1 : c0 = '-'
    · subst h1
      simp only [parseIntTok, if_true, Option.map_eq_some', List.cons_append] at h ⊢
      obtain ⟨⟨n, r0⟩, hq, heq⟩ := h
      simp only [Prod.mk.injEq] at heq
      obtain ⟨rfl, rfl⟩ := heq
      exact ⟨(n, ';' :: w), parseDigits_append_semi rest n w hq, rfl⟩
    · by_cases h2 : c0 = '+'
      · subst h2
        simp only [parseIntTok, if_neg (show ¬('+' : Char) = '-' by decide),
          if_true, Option.map_eq_some', List.cons_append] at h ⊢
        obtain ⟨⟨n, r0⟩, hq, heq⟩ := h
        simp only [Prod.mk.injEq] at heq
        obtain ⟨rfl, rfl⟩ := heq
        exact ⟨(n, ';' :: w), parseDigits_append_semi rest n w hq, rfl⟩
      · simp only [parseIntTok, if_neg h1, if_neg h2, Option.map_eq_some',
          List.cons_append] at h ⊢
        obtain ⟨⟨n, r0⟩, hq, heq⟩ := h
        simp only [Prod.mk.injEq] at heq
        obtain ⟨rfl, rfl⟩ := heq
        refine ⟨(n, ';' :: w), ?_, rfl⟩
        have := parseDigits_append_semi (c0 :: rest) n w hq
        simpa using this

theorem expectChar_eq (c : Char) (cs r : List Char)
    (h : expectChar c cs = some r) : cs = c :: r := by
  cases cs with
  | nil => simp [expectChar] at h
  | cons c0 r0 =>
    by_cases hc : c0 = c
    · subst hc
      simp only [expectChar, if_true, Option.some.injEq] at h
      rw [h]
    · simp [expectChar, hc] at h

theorem parse4_hasS (cs : List Char) (out : Int × Int × Int × Int × List Char)
    (h : parse4 cs = some out) :
    hasSolveMarker out.2.2.2.2 = hasSolveMarker cs := by
  simp only [parse4, Option.bind_eq_some, Option.map_eq_some'] at h
  obtain ⟨pr, hp, r1, h1, xr, hx, r2, h2, yr, hy, r3, h3, dr, hd, heq⟩ := h
  subst heq
  have e1 := expectChar_eq _ _ _ h1
  have e2 := expectChar_eq _ _ _ h2
  have e3 := expectChar_eq _ _ _ h3
  have hS1 : hasSolveMarker pr.2 = hasSolveMarker r1 := by
    rw [e1]
    simp [hasSolveMarker, show ((':' : Char) == 'S') = false from by decide]
  have hS2 : hasSolveMarker xr.2 = hasSolveMarker r2 := by
    rw [e2]
    simp [hasSolveMarker, show ((',' : Char) == 'S') = false from by decide]
  have hS3 : hasSolveMarker yr.2 = hasSolveMarker r3 := by
    rw [e3]
    simp [hasSolveMarker, show (('/' : Char) == 'S') = false from by decide]
  show hasSolveMarker dr.2 = hasSolveMarker cs
  rw [parseIntTok_hasS r3 dr hd, ← hS3, parseIntTok_hasS r2 yr hy, ← hS2,
    parseIntTok_hasS r1 xr hx, ← hS1, parseIntTok_hasS cs pr hp]

theorem parse4_append_semi (cs : List Char) (p x y d : Int)
    (h : parse4 cs = some (p, x, y, d, [])) (w : List Char) :
    parse4 (cs ++ ';' :: w) = some (p, x, y, d, ';' :: w) := by
  simp only [parse4, Option.bind_eq_some, Option.map_eq_some'] at h
  obtain ⟨pr, hp, r1, h1, xr, hx, r2, h2, yr, hy, r3, h3, dr, hd, heq⟩ := h
  simp only [Prod.ext_iff] at heq
  obtain ⟨hq1, hq2, hq3, hq4, hq5⟩ := heq
  have e1 := expectChar_eq _ _ _ h1
  have e2 := expectChar_eq _ _ _ h2
  have e3 := expectChar_eq _ _ _ h3
  have hp' : parseIntTok cs = some (pr.1, ':' :: r1) := by
    rw [hp, ← e1]
  have hx' : parseIntTok r1 = some (xr.1, ',' :: r2) := by
    rw [hx, ← e2]
  have hy' : parseIntTok r2 = some (yr.1, '/' :: r3) := by
    rw [hy, ← e3]
  have hd' : parseIntTok r3 = some (dr.1, []) := by
    rw [hd, ← hq5]
  have A1 := parseIntTok_append_stop cs pr.1 ':' r1 (';' :: w) hp'
  have A2 := parseIntTok_append_stop r1 xr.1 ',' r2 (';' :: w) hx'
  have A3 := parseIntTok_append_stop r2 yr.1 '/' r3 (';' :: w) hy'
  have A4 := parseIntTok_append_semi r3 dr.1 w hd'
  simp [parse4, A1, A2, A3, A4, expectChar, hq1, hq2, hq3, hq4]

theorem parseP_hasS (n : Nat) (cs : List Char) (pts : List point)
    (out : List point × List Char) (h : parseP n cs pts = some out) :
    hasSolveMarker out.2 = hasSolveMarker cs := by
  cases cs with
  | nil => simp [parseP] at h
  | cons c0 r =>
    by_cases hP : c0 = 'P'
    · subst hP
      simp only [parseP, if_true] at h
      cases hq : parse4 r with
      | none => rw [hq] at h; simp at h
      | some q =>
        obtain ⟨p, x, y, d, r2⟩ := q
        rw [hq] at h
        by_cases hc : 0 ≤ p ∧ p < (n : Int) ∧ 0 < d
        · simp only [if_pos hc, Option.some.injEq] at h
          subst h
          show hasSolveMarker (afterSemi r2) = _
          rw [hasSolveMarker_afterSemi]
          have := parse4_hasS r (p, x, y, d, r2) hq
          simp only at this
          rw [this]
          simp [hasSolveMarker, show (('P' : Char) == 'S') = false from by decide]
        · simp [if_neg hc] at h
    · simp [parseP, hP] at h

theorem stripS_not_S {c : Char} (hS : ¬c = 'S') (cs' : List Char)
    (ch js : Bool) : stripS (c :: cs') ch js = (c :: cs', ch, js) := by
  simp [stripS, hS]

theorem applyLoop_flags (n : Nat) : ∀ (fuel : Nat) (pts : List point)
    (ch js : Bool) (cs : List Char) (out : List point × Bool × Bool),
    applyLoop n fuel pts ch js cs = some out →
    out.2.1 = (ch || hasSolveMarker cs) ∧ out.2.2 = (js || hasSolveMarker cs) := by
  intro fuel
  induction fuel with
  | zero =>
    intro pts ch js cs out h
    cases cs with
    | nil =>
      simp only [applyLoop, Option.some.injEq] at h
      subst h
      simp [hasSolveMarker]
    | cons c cs' => simp [applyLoop] at h
  | succ f ih =>
    intro pts ch js cs out h
    cases cs with
    | nil =>
      simp only [applyLoop, Option.some.injEq] at h
      subst h
      simp [hasSolveMarker]
    | cons c cs' =>
      by_cases hS : c = 'S'
      · subst hS
        simp only [applyLoop, stripS, if_true] at h
        cases hq : parseP n (afterSemi cs') pts with
        | none => rw [hq] at h; simp at h
        | some pr =>
          obtain ⟨pts', rest⟩ := pr
          rw [hq] at h
          have hres := ih pts' true true rest out h
          have hmS : hasSolveMarker ('S' :: cs') = true := by
            simp [hasSolveMarker]
          constructor
          · rw [hres.1, hmS]
            simp
          · rw [hres.2, hmS]
            simp
      · simp only [applyLoop, stripS_not_S hS] at h
        cases hq : parseP n (c :: cs') pts with
        | none => rw [hq] at h; simp at h
        | some pr =>
          obtain ⟨pts', rest⟩ := pr
          rw [hq] at h
          have hres := ih pts' ch js rest out h
          have hrS : hasSolveMarker rest = hasSolveMarker (c :: cs') :=
            parseP_hasS n (c :: cs') pts (pts', rest) hq
          rw [hres.1, hres.2, hrS]
          exact ⟨rfl, rfl⟩

/-- Default edge for total indexing (never reached on in-range indices). -/
def edge0 : edge := ⟨0, 0⟩

/-- The pair scan finds a crossing exactly when some pair of edges
(`i < j` in list order) sharing no endpoint crosses, with the later
edge's endpoints passed to `cross` first as in the C code. -/
theorem findCrossPair_iff (c : Nat → point) (es : List edge) :
    findCrossPair c es = true ↔
    ∃ i j : Nat, i < j ∧ j < es.length ∧
      sharesEndpoint (es.getD i edge0) (es.getD j edge0) = false ∧
      cross (c (es.getD j edge0).a) (c (es.getD j edge0).b)
        (c (es.getD i edge0).a) (c (es.getD i edge0).b) = true := by
  induction es with
  | nil =>
    simp only [findCrossPair]
    constructor
    · intro h
      exact absurd h (by simp)
    · rintro ⟨i, j, -, hj, -⟩
      exact absurd hj (by simp)
  | cons e rest ih =>
    simp only [findCrossPair, Bool.or_eq_true, List.any_eq_true,
      Bool.and_eq_true, Bool.not_eq_true']
    constructor
    · rintro (⟨e2, hmem, hsh, hcr⟩ | hrec)
      · obtain ⟨k, hk, hek⟩ := List.mem_iff_getElem.mp hmem
        refine ⟨0, k + 1, Nat.succ_pos k, by simpa using hk, ?_, ?_⟩
        · rw [List.getD_cons_zero, List.getD_cons_succ,
            List.getD_eq_getElem rest edge0 hk, hek]
          exact hsh
        · rw [List.getD_cons_zero, List.getD_cons_succ,
            List.getD_eq_getElem rest edge0 hk, hek]
          exact hcr
      · obtain ⟨i, j, hij, hjl, hsh, hcr⟩ := ih.mp hrec
        refine ⟨i + 1, j + 1, Nat.succ_lt_succ hij, by simpa using hjl, ?_, ?_⟩
        · rw [List.getD_cons_succ, List.getD_cons_succ]
          exact hsh
        · rw [List.getD_cons_succ, List.getD_cons_succ]
          exact hcr
    · rintro ⟨i, j, hij, hjl, hsh, hcr⟩
      cases i with
      | zero =>
        cases j with
        | zero => exact absurd hij (by simp)
        | succ j' =>
          left
          have hj' : j' < rest.length := by simpa using hjl
          refine ⟨rest.getD j' edge0, ?_, ?_, ?_⟩
          · rw [List.getD_eq_getElem rest edge0 hj']
            exact List.getElem_mem hj'
          · rw [List.getD_cons_zero, List.getD_cons_succ] at hsh
            exact hsh
          · rw [List.getD_cons_zero, List.getD_cons_succ] at hcr
            exact hcr
      | succ i' =>
        cases j with
        | zero => exact absurd hij (by simp)
        | succ j' =>
          right
          refine ih.mpr ⟨i', j', Nat.lt_of_succ_lt_succ hij, by simpa using hjl, ?_, ?_⟩
          · rw [List.getD_cons_succ, List.getD_cons_succ] at hsh
            exact hsh
          · rw [List.getD_cons_succ, List.getD_cons_succ] at hcr
            exact hcr

/-! ### Concrete states for witnesses: the spec's 4-cycle scenario -/

/-- Four points with the 4-cycle edge set 0-1, 0-2, 1-3, 2-3 (the
concrete scenario of the spec), arranged with the square's corners
ordered so that edges 0-1 and 2-3 cross: not completed. -/
def st4 : game_state :=
  { n := 4, w := 3, h := 3,
    pts := [⟨0, 0, 1⟩, ⟨1, 1, 1⟩, ⟨1, 0, 1⟩, ⟨0, 1, 1⟩],
    edges := [⟨0, 1⟩, ⟨0, 2⟩, ⟨1, 3⟩, ⟨2, 3⟩],
    completed := false, cheated := false, just_solved := false }

/-- The same 4-cycle untangled into a plain square and marked
completed. -/
def st4done : game_state :=
  { n := 4, w := 3, h := 3,
    pts := [⟨0, 0, 1⟩, ⟨1, 0, 1⟩, ⟨0, 1, 1⟩, ⟨1, 1, 1⟩],
    edges := [⟨0, 1⟩, ⟨0, 2⟩, ⟨1, 3⟩, ⟨2, 3⟩],
    completed := true, cheated := false, just_solved := false }

/-- C1: for every state with completed = false and every move accepted
by execute_move, the new state has completed = true exactly when no two
edges of the graph sharing no endpoint cross (under the kernel
predicate, at the updated point positions, over all edge pairs). -/
theorem execute_move_completed_iff (st : game_state) (mv : String)
    (ret : game_state) (h0 : st.completed = false)
    (h : execute_move st mv = some ret) :
    ret.completed = true ↔
      ¬∃ i j : Nat, i < j ∧ j < st.edges.length ∧
        sharesEndpoint (st.edges.getD i edge0) (st.edges.getD j edge0) = false ∧
        cross (getPt ret.pts (st.edges.getD j edge0).a)
          (getPt ret.pts (st.edges.getD j edge0).b)
          (getPt ret.pts (st.edges.getD i edge0).a)
          (getPt ret.pts (st.edges.getD i edge0).b) = true := by
  unfold execute_move at h
  rw [Option.map_eq_some'] at h
  obtain ⟨out, hout, hret⟩ := h
  subst hret
  have hiff := findCrossPair_iff (getPt out.1) st.edges
  show (st.completed || !findCrossPair (getPt out.1) st.edges) = true ↔ _
  rw [h0, Bool.false_or]
  rw [← hiff]
  constructor
  · intro hb hc
    rw [hc] at hb
    exact absurd hb (by decide)
  · intro hc
    rcases Bool.eq_false_or_eq_true (findCrossPair (getPt out.1) st.edges) with hf | hf
    · exact absurd hf hc
    · rw [hf]
      rfl

/-- C1 (witness): applying the completion equivalence to the crossed
4-cycle state and a concrete accepted move. -/
theorem execute_move_completed_iff_witness :
    st4.completed = false ∧
    ∃ r, execute_move st4 "P0:0,0/1" = some r ∧
      (r.completed = true ↔
        ¬∃ i j : Nat, i < j ∧ j < st4.edges.length ∧
          sharesEndpoint (st4.edges.getD i edge0) (st4.edges.getD j edge0) = false ∧
          cross (getPt r.pts (st4.edges.getD j edge0).a)
            (getPt r.pts (st4.edges.getD j edge0).b)
            (getPt r.pts (st4.edges.getD i edge0).a)
            (getPt r.pts (st4.edges.getD i edge0).b) = true) := by
  refine ⟨rfl, ?_⟩
  have hs : (execute_move st4 "P0:0,0/1").isSome = true := by decide
  obtain ⟨r, hr⟩ := Option.isSome_iff_exists.mp hs
  exact ⟨r, hr, execute_move_completed_iff st4 "P0:0,0/1" r rfl hr⟩

/-- C3: the completed flag is sticky: from a completed state, any
accepted move yields a completed state, regardless of the new point
positions. -/
theorem execute_move_sticky_completed (st : game_state) (mv : String)
    (ret : game_state) (h0 : st.completed = true)
    (h : execute_move st mv = some ret) : ret.completed = true := by
  unfold execute_move at h
  rw [Option.map_eq_some'] at h
  obtain ⟨out, -, hret⟩ := h
  subst hret
  show (st.completed || _) = true
  rw [h0]
  rfl

/-- C3 (witness): a completed state, a concrete accepted move that
reintroduces a crossing (the pair scan finds one at the new positions),
and the resulting state still completed. -/
theorem execute_move_sticky_completed_witness :
    st4done.completed = true ∧
    (∃ r, execute_move st4done "P0:0,2/1" = some r ∧ r.completed = true) ∧
    (execute_move st4done "P0:0,2/1").map
      (fun s => findCrossPair (getPt s.pts) st4done.edges) = some true := by
  refine ⟨rfl, ?_, by decide⟩
  have hs : (execute_move st4done "P0:0,2/1").isSome = true := by decide
  obtain ⟨r, hr⟩ := Option.isSome_iff_exists.mp hs
  exact ⟨r, hr, execute_move_sticky_completed st4done "P0:0,2/1" r rfl hr⟩

/-- C5 (counterexample): a move without any solve marker that takes the
crossed 4-cycle to a crossing-free layout is accepted and completes the
puzzle, yet the resulting just-solved marker is NOT set: execute_move
raises just_solved only for solve ('S') moves, never on the transition
from not-completed to completed. -/
theorem just_solved_counterexample :
    st4.completed = false ∧
    (execute_move st4 "P0:0,0/1;P1:1,0/1;P2:0,1/1;P3:1,1/1").map
      (fun r => (r.completed, r.just_solved)) = some (true, false) := by
  exact ⟨rfl, by decide⟩

/-- C5 (amended): the just-solved marker of the state produced by an
accepted move equals the presence of a solve marker 'S' in that move's
token stream — it is cleared at the start of every move application
(so it lasts exactly one transition) and is raised exactly by solve
moves, not by the transition from not-completed to completed. -/
theorem execute_move_just_solved (st : game_state) (mv : String)
    (ret : game_state) (h : execute_move st mv = some ret) :
    ret.just_solved = hasSolveMarker mv.data := by
  unfold execute_move at h
  rw [Option.map_eq_some'] at h
  obtain ⟨out, hout, hret⟩ := h
  subst hret
  show out.2.2 = _
  rw [(applyLoop_flags st.n (mv.data.length + 1) st.pts st.cheated false
    mv.data out hout).2]
  rfl

/-- C5 (witness): the amended just-solved law applied to a concrete
solve move and a concrete plain move. -/
theorem execute_move_just_solved_witness :
    (∃ r, execute_move st4 "S;P0:0,0/1" = some r ∧
      r.just_solved = hasSolveMarker "S;P0:0,0/1".data) ∧
    hasSolveMarker "S;P0:0,0/1".data = true := by
  refine ⟨?_, by decide⟩
  have hs : (execute_move st4 "S;P0:0,0/1").isSome = true := by decide
  obtain ⟨r, hr⟩ := Option.isSome_iff_exists.mp hs
  exact ⟨r, hr, execute_move_just_solved st4 "S;P0:0,0/1" r hr⟩

/-- C9: the solve marker 'S' is accepted at any position of the move
stream, not only leading, and several markers may occur in one stream
(each must be followed directly by a point record); every accepted move
containing a marker ends with both the cheated and the just-solved flag
set.  Concretely: a stream with a non-leading marker and a stream with
two markers are both accepted and set both flags. -/
theorem execute_move_solve_marker_anywhere :
    (∀ (st : game_state) (mv : String) (ret : game_state),
      execute_move st mv = some ret → hasSolveMarker mv.data = true →
      ret.cheated = true ∧ ret.just_solved = true) ∧
    (execute_move st4 "P0:0,0/1;S;P1:1,0/1").map
      (fun r => (r.cheated, r.just_solved)) = some (true, true) ∧
    (execute_move st4 "S;P0:0,0/1;S;P1:1,0/1").map
      (fun r => (r.cheated, r.just_solved)) = some (true, true) := by
  refine ⟨?_, by decide, by decide⟩
  intro st mv ret h hS
  unfold execute_move at h
  rw [Option.map_eq_some'] at h
  obtain ⟨out, hout, hret⟩ := h
  subst hret
  have hfl := applyLoop_flags st.n (mv.data.length + 1) st.pts st.cheated
    false mv.data out hout
  constructor
  · show out.2.1 = true
    rw [hfl.1, hS]
    simp
  · show out.2.2 = true
    rw [hfl.2, hS]
    simp

/-- C9 (witness): the flag law applied to a concrete accepted stream
with a non-leading solve marker. -/
theorem execute_move_solve_marker_anywhere_witness :
    ∃ r, execute_move st4 "P0:0,0/1;S;P1:1,0/1" = some r ∧
      r.cheated = true ∧ r.just_solved = true := by
  have hs : (execute_move st4 "P0:0,0/1;S;P1:1,0/1").isSome = true := by decide
  obtain ⟨r, hr⟩ := Option.isSome_iff_exists.mp hs
  exact ⟨r, hr,
    execute_move_solve_marker_anywhere.1 st4 "P0:0,0/1;S;P1:1,0/1" r hr (by decide)⟩

/-! ### Move-stream tokens (for the atomicity property) -/

/-- Split a move stream at every ';' (the record separator of the move
format); used to speak about the stream's tokens. -/
def splitToks : List Char → List (List Char)
  | [] => [[]]
  | c :: cs =>
    if c = ';' then [] :: splitToks cs
    else
      match splitToks cs with
      | t :: ts => (c :: t) :: ts
      | [] => [[c]]

/-- Join tokens with the ';' record separator. -/
def joinToks : List (List Char) → List Char
  | [] => []
  | t :: ts =>
    match ts with
    | [] => t
    | _ :: _ => t ++ ';' :: joinToks ts

/-- A token is syntactically a single record: the solve marker "S", or
"P" followed by `<i>:<x>,<y>/<d>` consuming the whole token. -/
def tokenShapeOK (t : List Char) : Bool :=
  t == ['S'] ||
  (match t with
   | [] => false
   | c :: r =>
     c == 'P' &&
     (match parse4 r with
      | some q => q.2.2.2.2.isEmpty
      | none => false))

/-- A point-record token's semantic checks from execute_move:
`p >= 0 && p < n && d > 0` (vacuously true for other tokens). -/
def tokenRangeOK (n : Nat) (t : List Char) : Bool :=
  match t with
  | [] => true
  | c :: r =>
    if c = 'P' then
      match parse4 r with
      | some q =>
        decide (0 ≤ q.1) && decide (q.1 < (n : Int)) && decide (0 < q.2.2.2.1)
      | none => true
    else true

/-- A well-formed record: a solve marker or an in-range point record. -/
def tokenWellFormed (n : Nat) (t : List Char) : Bool :=
  tokenShapeOK t && tokenRangeOK n t

/-- C4 (counterexample): a move stream containing a malformed record is
not always rejected.  The stream "P0:0,0/1P1:1,0/1" (two point records
concatenated without a separator) has exactly one ';'-token, which is
malformed — it is neither a solve marker nor a single point record —
yet execute_move accepts the whole stream and applies both updates. -/
theorem move_atomicity_counterexample :
    (splitToks "P0:0,0/1P1:1,0/1".data).any
      (fun t => !tokenWellFormed st4.n t) = true ∧
    (execute_move st4 "P0:0,0/1P1:1,0/1").map (fun r => r.pts) =
      some [⟨0, 0, 1⟩, ⟨1, 0, 1⟩, ⟨1, 0, 1⟩, ⟨0, 1, 1⟩] := by
  exact ⟨by decide, by decide⟩

theorem tokenShapeOK_cases (t : List Char) (h : tokenShapeOK t = true) :
    t = ['S'] ∨ ∃ r p x y d, t = 'P' :: r ∧
      parse4 r = some (p, x, y, (d : Int), ([] : List Char)) := by
  unfold tokenShapeOK at h
  rw [Bool.or_eq_true] at h
  rcases h with h | h
  · left
    exact beq_iff_eq.mp h
  · right
    cases t with
    | nil => simp at h
    | cons c r =>
      simp only [Bool.and_eq_true, beq_iff_eq] at h
      obtain ⟨rfl, h⟩ := h
      cases hq : parse4 r with
      | none => rw [hq] at h; simp at h
      | some q =>
        rw [hq] at h
        simp only [List.isEmpty_iff] at h
        refine ⟨r, q.1, q.2.1, q.2.2.1, q.2.2.2.1, rfl, ?_⟩
        rw [hq, ← h]

theorem parseP_P (n : Nat) (r : List Char) (pts : List point)
    (p x y d : Int) (r2 : List Char) (hq : parse4 r = some (p, x, y, d, r2)) :
    parseP n ('P' :: r) pts =
      if 0 ≤ p ∧ p < (n : Int) ∧ 0 < d then
        some (pts.set p.toNat ⟨x, y, d⟩, afterSemi r2)
      else none := by
  simp [parseP, hq]

theorem parseP_not_P {c : Char} (hc : ¬c = 'P') (n : Nat) (r : List Char)
    (pts : List point) : parseP n (c :: r) pts = none := by
  simp [parseP, hc]

theorem tokenRangeOK_P (n : Nat) (r : List Char) (p x y d : Int)
    (r2 : List Char) (hq : parse4 r = some (p, x, y, d, r2))
    (hc : 0 ≤ p ∧ p < (n : Int) ∧ 0 < d) :
    tokenRangeOK n ('P' :: r) = true := by
  simp only [tokenRangeOK, if_true, hq]
  simp [hc.1, hc.2.1, hc.2.2]

theorem joinToks_cons_head (c : Char) (t : List Char)
    (ts : List (List Char)) : ∃ w, joinToks ((c :: t) :: ts) = c :: w := by
  cases ts with
  | nil => exact ⟨t, rfl⟩
  | cons t1 ts' => exact ⟨t ++ ';' :: joinToks (t1 :: ts'), rfl⟩

theorem parseP_joinP (n : Nat) (pts : List point) (r1 : List Char)
    (p x y d : Int) (hq : parse4 r1 = some (p, x, y, d, []))
    (ts' : List (List Char)) :
    parseP n (joinToks (('P' :: r1) :: ts')) pts =
      if 0 ≤ p ∧ p < (n : Int) ∧ 0 < d then
        some (pts.set p.toNat ⟨x, y, d⟩, joinToks ts')
      else none := by
  cases ts' with
  | nil =>
    show parseP n ('P' :: r1) pts = _
    rw [parseP_P n r1 pts p x y d [] hq]
    simp [afterSemi, joinToks]
  | cons t2 ts'' =>
    show parseP n ('P' :: (r1 ++ ';' :: joinToks (t2 :: ts''))) pts = _
    rw [parseP_P n _ pts p x y d _
      (parse4_append_semi r1 p x y d hq (joinToks (t2 :: ts'')))]
    simp [afterSemi]

theorem applyLoop_join_ranges (n : Nat) : ∀ (fuel : Nat)
    (toks : List (List Char)) (pts : List point) (ch js : Bool)
    (out : List point × Bool × Bool),
    (∀ t ∈ toks, tokenShapeOK t = true) →
    applyLoop n fuel pts ch js (joinToks toks) = some out →
    ∀ t ∈ toks, tokenRangeOK n t = true := by
  intro fuel
  induction fuel with
  | zero =>
    intro toks pts ch js out hshape h t ht
    exfalso
    cases toks with
    | nil => exact absurd ht (by simp)
    | cons t0 ts =>
      rcases tokenShapeOK_cases t0 (hshape t0 (by simp)) with h0 | ⟨r0, p, x, y, d, h0, -⟩
      · subst h0
        obtain ⟨w, hw⟩ := joinToks_cons_head 'S' [] ts
        rw [hw] at h
        simp [applyLoop] at h
      · subst h0
        obtain ⟨w, hw⟩ := joinToks_cons_head 'P' r0 ts
        rw [hw] at h
        simp [applyLoop] at h
  | succ f ih =>
    intro toks pts ch js out hshape h t ht
    cases toks with
    | nil => exact absurd ht (by simp)
    | cons t0 ts =>
      rcases tokenShapeOK_cases t0 (hshape t0 (by simp)) with h0 | ⟨r0, p, x, y, d, h0, hq0⟩
      · -- t0 = ['S']
        subst h0
        cases ts with
        | nil =>
          exfalso
          have hj : joinToks [(['S'] : List Char)] = ['S'] := rfl
          rw [hj] at h
          simp [applyLoop, stripS, afterSemi, parseP] at h
        | cons t1 ts' =>
          have hj : joinToks (['S'] :: t1 :: ts') =
              'S' :: ';' :: joinToks (t1 :: ts') := rfl
          rw [hj] at h
          simp only [applyLoop, stripS, afterSemi, if_true] at h
          -- h : (match parseP n (joinToks (t1 :: ts')) pts with ...) = some out
          rcases tokenShapeOK_cases t1 (hshape t1 (by simp)) with h1 | ⟨r1, p, x, y, d, h1, hq1⟩
          · -- t1 = ['S']: the P branch sees 'S', rejects
            exfalso
            subst h1
            obtain ⟨w, hw⟩ := joinToks_cons_head 'S' [] ts'
            rw [hw, parseP_not_P (by decide) n w pts] at h
            simp at h
          · subst h1
            rw [parseP_joinP n pts r1 p x y d hq1 ts'] at h
            by_cases hr : 0 ≤ p ∧ p < (n : Int) ∧ 0 < d
            · rw [if_pos hr] at h
              have hrest := ih ts' (pts.set p.toNat ⟨x, y, d⟩) true true out
                (fun u hu => hshape u (by simp [hu])) h
              rcases List.mem_cons.mp ht with rfl | ht1
              · rfl
              · rcases List.mem_cons.mp ht1 with rfl | ht2
                · exact tokenRangeOK_P n r1 p x y d [] hq1 hr
                · exact hrest t ht2
            · rw [if_neg hr] at h
              simp at h
      · -- t0 = 'P' :: r0
        subst h0
        obtain ⟨w, hw⟩ := joinToks_cons_head 'P' r0 ts
        rw [hw] at h
        simp only [applyLoop, stripS_not_S (by decide : ¬('P' : Char) = 'S')] at h
        rw [← hw, parseP_joinP n pts r0 p x y d hq0 ts] at h
        by_cases hr : 0 ≤ p ∧ p < (n : Int) ∧ 0 < d
        · rw [if_pos hr] at h
          have hrest := ih ts (pts.set p.toNat ⟨x, y, d⟩) ch js out
            (fun u hu => hshape u (by simp [hu])) h
          rcases List.mem_cons.mp ht with rfl | ht1
          · exact tokenRangeOK_P n r0 p x y d [] hq0 hr
          · exact hrest t ht1
        · rw [if_neg hr] at h
          simp at h

/-- C4 (amended): for every state and every move stream assembled by
joining with ';' a list of tokens, each syntactically a solve marker or
a complete point record, if at least one token's point record fails the
range check (index outside [0, n) or denominator not positive) then
execute_move rejects the whole stream and returns no new state, so the
input state — a pure value — is untouched and no well-formed prefix
takes effect.  (The claim as stated, over arbitrary malformed tokens,
is false; see the counterexample: a ';'-token that concatenates two
well-formed point records is malformed yet the stream is accepted.) -/
theorem move_atomicity (st : game_state) (toks : List (List Char))
    (hshape : ∀ t ∈ toks, tokenShapeOK t = true)
    (hbad : ∃ t ∈ toks, tokenRangeOK st.n t = false) :
    execute_move st (String.mk (joinToks toks)) = none := by
  rcases hex : execute_move st (String.mk (joinToks toks)) with _ | ret
  · rfl
  · exfalso
    unfold execute_move at hex
    rw [Option.map_eq_some'] at hex
    obtain ⟨out, hout, -⟩ := hex
    obtain ⟨t, ht, hbadt⟩ := hbad
    have hall := applyLoop_join_ranges st.n
      ((String.mk (joinToks toks)).data.length + 1) toks st.pts st.cheated
      false out hshape hout t ht
    rw [hall] at hbadt
    exact absurd hbadt (by decide)

/-- C4 (witness): the amended atomicity applied to a concrete stream of
one well-formed update and one out-of-range update. -/
theorem move_atomicity_witness :
    (∀ t ∈ [("P0:0,0/1".data : List Char), "P9:1,1/1".data],
      tokenShapeOK t = true) ∧
    (∃ t ∈ [("P0:0,0/1".data : List Char), "P9:1,1/1".data],
      tokenRangeOK st4.n t = false) ∧
    execute_move st4
      (String.mk (joinToks ["P0:0,0/1".data, "P9:1,1/1".data])) = none :=
  ⟨by decide, by decide, move_atomicity st4 _ (by decide) (by decide)⟩

/-! ## Description validation (validate_desc) -/

/-- Model of `atoi` at the current position: optional sign and digits,
value 0 when no number is present (the whitespace skip is again not
modelled, as above). -/
def atoiI (cs : List Char) : Int :=
  match parseIntTok cs with
  | some pr => pr.1
  | none => 0

/-- `while (*desc && isdigit((unsigned char)*desc)) desc++;` -/
def skipDigits : List Char → List Char
  | [] => []
  | c :: cs => if c.isDigit then skipDigits cs else c :: cs

/-- The loop of validate_desc: read `a`, range-check it against the
point count, require '-', read `b`, range-check, then either stop at the
end of the string or require ',' and continue.  Fuel only bounds the
recursion (the caller passes length + 1; every continuing iteration
consumes at least the dash). -/
def vdLoop (n : Nat) : Nat → List Char → Option String
  | _, [] => none
  | 0, _ :: _ => none
  | fuel + 1, cs =>
    let a := atoiI cs
    if a < 0 ∨ (n : Int) ≤ a then
      some "Number out of range in game description"
    else
      match skipDigits cs with
      | [] => some "Expected '-' after number in game description"
      | c :: cs2 =>
        if c = '-' then
          let b := atoiI cs2
          if b < 0 ∨ (n : Int) ≤ b then
            some "Number out of range in game description"
          else
            match skipDigits cs2 with
            | [] => none
            | c2 :: cs3 =>
              if c2 = ',' then vdLoop n fuel cs3
              else some "Expected ',' after number in game description"
        else some "Expected '-' after number in game description"

/-- validate_desc: run the loop over the description; `none` means no
error (the description is accepted). -/
def validate_desc (n : Nat) (desc : String) : Option String :=
  vdLoop n (desc.data.length + 1) desc.data

/-- C10: validate_desc checks only that the two indices of each token
are in [0, n) and that tokens are shaped `a-b` and separated by ',': it
accepts the empty description for every point count, and accepts tokens
with a >= b ("3-2", "2-2" for n = 4) as well as duplicate edge tokens
("1-2,1-2"), returning no error. -/
theorem validate_desc_shape_only :
    (∀ n : Nat, validate_desc n "" = none) ∧
    validate_desc 4 "3-2" = none ∧
    validate_desc 4 "2-2" = none ∧
    validate_desc 4 "1-2,1-2" = none := by
  exact ⟨fun n => rfl, by decide, by decide, by decide⟩

/-! ## The circular scrambler's permutation search (new_game_desc) -/

/-- Coordinate lookup for the scrambler's crossing test: the circle
point in the slot that the permutation `tmp` assigns to vertex `i`,
`pts2[tmp[i]]`. -/
def permPt (pts2 : List point) (tmp : List Nat) (i : Nat) : point :=
  getPt pts2 (tmp.getD i 0)

/-- The scrambler's acceptance loop of new_game_desc, over the stream of
shuffled permutations: accept the first permutation under which some
pair of edges sharing no endpoint crosses on the circle layout
(`while (1) { shuffle(tmp); scan all edge pairs; if (e) break; }`). -/
def scramblerSearch (pts2 : List point) (edges : List edge) :
    List (List Nat) → Option (List Nat)
  | [] => none
  | tmp :: more =>
    if findCrossPair (permPt pts2 tmp) edges then some tmp
    else scramblerSearch pts2 edges more

/-- C8: whenever the permutation search terminates, the accepted
permutation applied to the circle layout yields at least one pair of
edges sharing no endpoint that cross under the kernel predicate: the
published initial arrangement is never crossing-free. -/
theorem scrambler_accepts_crossing (pts2 : List point) (edges : List edge)
    (perms : List (List Nat)) (tmp : List Nat)
    (h : scramblerSearch pts2 edges perms = some tmp) :
    ∃ i j : Nat, i < j ∧ j < edges.length ∧
      sharesEndpoint (edges.getD i edge0) (edges.getD j edge0) = false ∧
      cross (permPt pts2 tmp (edges.getD j edge0).a)
        (permPt pts2 tmp (edges.getD j edge0).b)
        (permPt pts2 tmp (edges.getD i edge0).a)
        (permPt pts2 tmp (edges.getD i edge0).b) = true := by
  induction perms with
  | nil => exact absurd h (by simp [scramblerSearch])
  | cons t more ih =>
    by_cases hf : findCrossPair (permPt pts2 t) edges = true
    · simp only [scramblerSearch, hf, if_true, Option.some.injEq] at h
      subst h
      exact (findCrossPair_iff (permPt pts2 t) edges).mp hf
    · simp only [scramblerSearch, if_neg hf] at h
      exact ih h

/-- The circle layout used in the scrambler witness: four corners in
circular order. -/
def circlePts4 : List point :=
  [⟨0, 0, 1⟩, ⟨1, 0, 1⟩, ⟨1, 1, 1⟩, ⟨0, 1, 1⟩]

/-- C8 (witness): the search applied to the 4-cycle with the concrete
permutation 0,2,1,3, under which edges 0-1 and 2-3 cross. -/
theorem scrambler_accepts_crossing_witness :
    scramblerSearch circlePts4 st4.edges [[0, 2, 1, 3]] = some [0, 2, 1, 3] ∧
    ∃ i j : Nat, i < j ∧ j < st4.edges.length ∧
      sharesEndpoint (st4.edges.getD i edge0) (st4.edges.getD j edge0) = false ∧
      cross (permPt circlePts4 [0, 2, 1, 3] (st4.edges.getD j edge0).a)
        (permPt circlePts4 [0, 2, 1, 3] (st4.edges.getD j edge0).b)
        (permPt circlePts4 [0, 2, 1, 3] (st4.edges.getD i edge0).a)
        (permPt circlePts4 [0, 2, 1, 3] (st4.edges.getD i edge0).b) = true :=
  ⟨by decide,
   scrambler_accepts_crossing circlePts4 st4.edges [[0, 2, 1, 3]] [0, 2, 1, 3]
     (by decide)⟩

/-! ## The greedy synthesizer's candidate list (new_game_desc) -/

/-- Transient vertex record of the synthesizer (struct vertex): `param`
holds the degree in the vertex tree and the squared distance in the
candidate list. -/
structure vertex where
  param : Int
  vindex : Nat
deriving DecidableEq, Repr

/-- The order decided by vertcmpC: by `param` first, then by vertex
index. -/
def vertLe (a b : vertex) : Prop :=
  a.param < b.param ∨ (a.param = b.param ∧ a.vindex ≤ b.vindex)

instance : DecidableRel vertLe := fun a b => by
  unfold vertLe
  infer_instance

instance : IsTotal vertex vertLe := by
  constructor
  intro a b
  rcases lt_trichotomy a.param b.param with h | h | h
  · exact Or.inl (Or.inl h)
  · rcases Nat.le_total a.vindex b.vindex with hv | hv
    · exact Or.inl (Or.inr ⟨h, hv⟩)
    · exact Or.inr (Or.inr ⟨h.symm, hv⟩)
  · exact Or.inr (Or.inl h)

instance : IsTrans vertex vertLe := by
  constructor
  intro a b c hab hbc
  rcases hab with ha | ⟨ha, hia⟩
  · rcases hbc with hb | ⟨hb, -⟩
    · exact Or.inl (ha.trans hb)
    · exact Or.inl (hb ▸ ha)
  · rcases hbc with hb | ⟨hb, hib⟩
    · refine Or.inl ?_
      rw [ha]
      exact hb
    · exact Or.inr ⟨ha.trans hb, hia.trans hib⟩

/-- MAXDEGREE of untangle.c. -/
def MAXDEGREE : Int := 4

/-- isedge: look up the canonical (min, max) pair in the edge set. -/
def isedge (edges : List edge) (a b : Nat) : Bool :=
  edges.contains ⟨min a b, max a b⟩

/-- The squared distance `dx*dx + dy*dy` between pts[ki] and pts[j]
(generation-time points have denominator 1; the C code reads only the
`x` and `y` fields here). -/
def dist2 (pts : List point) (ki j : Nat) : Int :=
  let dx := (getPt pts ki).x - (getPt pts j).x
  let dy := (getPt pts ki).y - (getPt pts j).y
  dx * dx + dy * dy

/-- The candidate list the synthesizer builds for the selected vertex
`j`: walk the remaining vertex records of the degree-ordered tree, skip
those with degree at MAXDEGREE or above and those already adjacent to
`j`, key the rest by squared distance to `j`, and sort with vertcmpC
(the qsort, modelled as an insertion sort over the same total order). -/
def candidateList (pts : List point) (edges : List edge)
    (others : List vertex) (j : Nat) : List vertex :=
  List.insertionSort vertLe
    (others.filterMap fun kv =>
      if MAXDEGREE ≤ kv.param ∨ isedge edges kv.vindex j then none
      else some ⟨dist2 pts kv.vindex j, kv.vindex⟩)

/-- C7: when the scan has selected the first vertex `j` whose degree is
below MAXDEGREE (the head of the (degree, index)-ordered vertex tree)
and `others` holds the remaining tree records — every other vertex
`u < n` paired with its current degree `deg u` — the candidate list
contains exactly the other vertices of degree below MAXDEGREE not
already adjacent to `j`, keyed by squared Euclidean distance to `j`,
and is sorted by (squared distance, vertex index). -/
theorem candidateList_complete_sorted (pts : List point) (edges : List edge)
    (n : Nat) (deg : Nat → Int) (others : List vertex) (j : Nat)
    (hothers : ∀ u ∈ List.range n, u ≠ j → (⟨deg u, u⟩ : vertex) ∈ others)
    (hshape : ∀ kv ∈ others,
      kv.vindex < n ∧ kv.vindex ≠ j ∧ kv.param = deg kv.vindex) :
    (∀ u : Nat,
      (∃ kv ∈ candidateList pts edges others j, kv.vindex = u) ↔
      (u < n ∧ u ≠ j ∧ deg u < MAXDEGREE ∧ isedge edges u j = false)) ∧
    (∀ kv ∈ candidateList pts edges others j,
      kv.param = dist2 pts kv.vindex j) ∧
    List.Sorted vertLe (candidateList pts edges others j) := by
  have hperm := List.perm_insertionSort vertLe
    (others.filterMap fun kv =>
      if MAXDEGREE ≤ kv.param ∨ isedge edges kv.vindex j then none
      else some ⟨dist2 pts kv.vindex j, kv.vindex⟩)
  refine ⟨?_, ?_, List.sorted_insertionSort vertLe _⟩
  · intro u
    constructor
    · rintro ⟨kv, hkv, rfl⟩
      have hkv2 := hperm.mem_iff.mp hkv
      rw [List.mem_filterMap] at hkv2
      obtain ⟨kv0, hkv0, hcond⟩ := hkv2
      by_cases hc : MAXDEGREE ≤ kv0.param ∨ isedge edges kv0.vindex j
      · rw [if_pos hc] at hcond
        exact absurd hcond (by simp)
      · rw [if_neg hc] at hcond
        rw [Option.some_inj] at hcond
        subst hcond
        obtain ⟨hlt, hne, hdeg⟩ := hshape kv0 hkv0
        push_neg at hc
        refine ⟨hlt, hne, ?_, ?_⟩
        · rw [← hdeg]
          exact hc.1
        · rcases Bool.eq_false_or_eq_true (isedge edges kv0.vindex j) with hb | hb
          · exact absurd hb hc.2
          · exact hb
    · rintro ⟨hu, hne, hdeg, hedge⟩
      have hmem := hothers u (List.mem_range.mpr hu) hne
      have hnotc : ¬(MAXDEGREE ≤ deg u ∨ isedge edges u j = true) := by
        push_neg
        exact ⟨hdeg, by simp [hedge]⟩
      refine ⟨⟨dist2 pts u j, u⟩,
        hperm.mem_iff.mpr (List.mem_filterMap.mpr ⟨⟨deg u, u⟩, hmem, ?_⟩), rfl⟩
      simp only [if_neg hnotc]
  · intro kv hkv
    have hkv2 := hperm.mem_iff.mp hkv
    rw [List.mem_filterMap] at hkv2
    obtain ⟨kv0, hkv0, hcond⟩ := hkv2
    by_cases hc : MAXDEGREE ≤ kv0.param ∨ isedge edges kv0.vindex j
    · rw [if_pos hc] at hcond
      exact absurd hcond (by simp)
    · rw [if_neg hc] at hcond
      rw [Option.some_inj] at hcond
      subst hcond
      rfl

/-- Concrete synthesizer snapshot for the candidate-list witness:
vertex 0 selected, vertex 3 already at full degree, vertex 1 already
adjacent to 0. -/
def degW : Nat → Int := fun u => if u = 3 then 4 else 0

def othersW : List vertex := [⟨0, 1⟩, ⟨0, 2⟩, ⟨4, 3⟩]

def ptsW : List point := [⟨0, 0, 1⟩, ⟨5, 0, 1⟩, ⟨1, 1, 1⟩, ⟨2, 2, 1⟩]

def edgesW : List edge := [⟨0, 1⟩]

/-- C7 (witness): the candidate-list characterisation applied to the
concrete snapshot. -/
theorem candidateList_complete_sorted_witness :
    (∀ u ∈ List.range 4, u ≠ 0 → (⟨degW u, u⟩ : vertex) ∈ othersW) ∧
    (∀ kv ∈ othersW,
      kv.vindex < 4 ∧ kv.vindex ≠ 0 ∧ kv.param = degW kv.vindex) ∧
    ((∀ u : Nat,
      (∃ kv ∈ candidateList ptsW edgesW othersW 0, kv.vindex = u) ↔
      (u < 4 ∧ u ≠ 0 ∧ degW u < MAXDEGREE ∧ isedge edgesW u 0 = false)) ∧
     (∀ kv ∈ candidateList ptsW edgesW othersW 0,
       kv.param = dist2 ptsW kv.vindex 0) ∧
     List.Sorted vertLe (candidateList ptsW edgesW othersW 0)) :=
  ⟨by decide, by decide,
   candidateList_complete_sorted ptsW edgesW 4 degW othersW 0
     (by decide) (by decide)⟩
